import Mathlib

/-!
# miner/agent.go: the CPU mining agent

A shallow embedding of `CpuAgent` (src/miner/agent.go) as a labelled transition
system, and the properties of its lifecycle and dispatch protocol.

The agent is concurrent Go code.  Every goroutine is cut at its blocking
operations (channel send and receive, `select`, `mu.Lock`); the code between two
blocking operations is one step.  A critical section of `mu` is one step: no
other goroutine that respects the lock can see inside it.  The world state
holds the agent's fields, the program counter of every goroutine the agent has
spawned, and a trace of the operations performed so far.

A cancellation token is a channel made by `make(chan struct{})`; it is
identified by its number in the order of creation.
-/

namespace Miner

/-- A `*types.Block`: an opaque handle. -/
abbrev BlockRef := Nat

/-- A `float64`, as its IEEE-754 bit pattern. -/
abbrev Float64 := Nat

/-- Capacity of `workCh` and of `stop`: both are made with `make(chan _, 1)`. -/
def chanCap : Nat := 1

/-- Modelled from the spec: the type `Work` is declared outside agent.go; the
agent reads only its `Block` field. -/
structure Work where
  Block : BlockRef
  deriving DecidableEq, Repr

/-- Modelled from the spec: the type `Result` is declared outside agent.go; it
pairs the originating work with the sealed block (`&Result{work, result}`). -/
structure Result where
  Work : Work
  Block : BlockRef
  deriving DecidableEq, Repr

/-- Modelled from the spec: the values of Go's `error` that `Seal` may return.
The source sees only the interface type; the spec singles out the error that
says "operation was cancelled" among all others. -/
inductive SealError
  | cancelled
  | failed (msg : String)
  deriving DecidableEq, Repr

/-- Modelled from the spec: `consensus.Engine` as the agent uses it.  `pow` is
`some r` when the engine also implements `consensus.PoW`, `r` being what its
`Hashrate()` reports, and `none` when the type assertion fails. -/
structure Engine where
  pow : Option Float64
  deriving DecidableEq, Repr

/-- The operations a goroutine of the agent performs, as recorded in the trace. -/
inductive Event
  /-- The statement `go self.update()`. -/
  | spawnUpdate
  /-- The send `self.stop <- struct{}{}` in `Stop`. -/
  | sendStop
  /-- The receive `case <-self.stop:` in `update`. -/
  | recvStop
  /-- A send on the channel returned by `Work()`. -/
  | sendWork (w : Work)
  /-- The receive `case work := <-self.workCh:` in `update`. -/
  | recvWork (w : Work)
  /-- The receive `case <-self.workCh:` in the drain loop of `Stop`. -/
  | drainWork (w : Work)
  /-- The call `self.mu.Lock()`. -/
  | lock
  /-- The call `self.mu.Unlock()`. -/
  | unlock
  /-- The call `close(self.quitCurrentOp)`. -/
  | closeTok (t : Nat)
  /-- The call `make(chan struct{})`. -/
  | makeTok (t : Nat)
  /-- The statement `go self.mine(work, self.quitCurrentOp)`. -/
  | spawnMine (w : Work) (t : Nat)
  /-- The call `log.Info("Successfully sealed new block", ...)`. -/
  | info (b : BlockRef)
  /-- The call `log.Warn("Block sealing failed", "err", err)`. -/
  | warn (e : SealError)
  /-- The send `self.returnCh <- msg`. -/
  | ret (msg : Option Result)
  deriving DecidableEq, Repr

/-- The fields of `CpuAgent`.  A buffered channel is its buffer: `workCh` the
queued work items, `stop` the number of queued signals.  `returnCh` is `none`
for Go's nil channel.  The mutex `mu` is free between any two steps and shows
only as `lock` and `unlock` events. -/
structure CpuAgent where
  workCh : List Work
  stop : Nat
  quitCurrentOp : Option Nat
  returnCh : Option Nat
  chain : Nat
  engine : Engine
  isMining : Int
  deriving DecidableEq, Repr

/-- Where a goroutine running `update` stands. -/
inductive LoopPc
  /-- Blocked in the `select`. -/
  | selecting
  /-- Has taken `work` off `workCh`, about to lock and dispatch it. -/
  | gotWork (work : Work)
  /-- Has taken the stop signal off `stop`, about to lock, cancel and leave. -/
  | gotStop
  /-- After `break out`. -/
  | exited
  deriving DecidableEq, Repr

/-- The agent together with the goroutines that work on it.
`loops` are the goroutines running `update`, in spawning order;
`stopSending` counts the `Stop` calls that won the compare-and-swap and stand
at the send on `stop`; `stopDraining` counts the `Stop` calls inside the drain
loop; `sealing` are the goroutines running `mine` that have not delivered yet;
`nextTok` is the number of tokens made so far; `trace` is the history. -/
structure World where
  agent : CpuAgent
  loops : List LoopPc
  stopSending : Nat
  stopDraining : Nat
  sealing : List (Work × Nat)
  nextTok : Nat
  trace : List Event
  deriving DecidableEq, Repr

/-- The constructor `NewCpuAgent`: both channels empty, every other field zero. -/
def NewCpuAgent (chain : Nat) (engine : Engine) : CpuAgent :=
  { chain := chain
    engine := engine
    stop := 0
    workCh := []
    quitCurrentOp := none
    returnCh := none
    isMining := 0 }

/-- The world right after `NewCpuAgent`: no goroutine, no token, empty trace. -/
def newWorld (chain : Nat) (engine : Engine) : World :=
  { agent := NewCpuAgent chain engine
    loops := []
    stopSending := 0
    stopDraining := 0
    sealing := []
    nextTok := 0
    trace := [] }

/-- The call `atomic.CompareAndSwapInt32(&v, old, new)`: the new value of `v`
and whether the swap happened. -/
def CompareAndSwapInt32 (v old new : Int) : Int × Bool :=
  if v = old then (new, true) else (v, false)

/-- The method `SetReturnCh`. -/
def SetReturnCh (s : World) (ch : Nat) : World :=
  { s with agent := { s.agent with returnCh := some ch } }

/-- The method `Start`: it never blocks, so it is one step. -/
def Start (s : World) : World :=
  match CompareAndSwapInt32 s.agent.isMining 0 1 with
  | (_, false) => s
  | (v, true) =>
    { s with
      agent := { s.agent with isMining := v }
      loops := s.loops ++ [LoopPc.selecting]
      trace := s.trace ++ [Event.spawnUpdate] }

/-- The first step of `Stop`: the compare-and-swap.  On failure the call
returns; on success it stands at the send on `stop`. -/
def StopBegin (s : World) : World :=
  match CompareAndSwapInt32 s.agent.isMining 1 0 with
  | (_, false) => s
  | (v, true) =>
    { s with
      agent := { s.agent with isMining := v }
      stopSending := s.stopSending + 1 }

/-- The second step of `Stop`: the send `self.stop <- struct{}{}`, which needs
room in the buffer; `none` while it is blocked. -/
def StopSend (s : World) : Option World :=
  if s.stopSending = 0 then none
  else if s.agent.stop < chanCap then
    some { s with
      agent := { s.agent with stop := s.agent.stop + 1 }
      stopSending := s.stopSending - 1
      stopDraining := s.stopDraining + 1
      trace := s.trace ++ [Event.sendStop] }
  else none

/-- One turn of the drain loop of `Stop`: take an item off `workCh` and loop,
or take the `default` branch and return. -/
def StopDrain (s : World) : Option World :=
  if s.stopDraining = 0 then none
  else
    match s.agent.workCh with
    | w :: rest =>
      some { s with
        agent := { s.agent with workCh := rest }
        trace := s.trace ++ [Event.drainWork w] }
    | [] => some { s with stopDraining := s.stopDraining - 1 }

/-- The drain loop of `Stop` run without interruption, until it returns. -/
def StopDrainLoop : Nat → World → Option World
  | 0, _ => none
  | fuel + 1, s =>
    match s.agent.workCh with
    | [] => StopDrain s
    | _ :: _ => (StopDrain s).bind (StopDrainLoop fuel)

/-- The method `Stop` run without interruption: the state when it returns, or
`none` when it blocks on the send. -/
def Stop (s : World) : Option World :=
  match CompareAndSwapInt32 s.agent.isMining 1 0 with
  | (_, false) => some s
  | (_, true) =>
    (StopSend (StopBegin s)).bind
      (fun s1 => StopDrainLoop (s1.agent.workCh.length + 1) s1)

/-- A send on the channel returned by `Work()`: needs room in the buffer. -/
def Submit (s : World) (w : Work) : Option World :=
  if s.agent.workCh.length < chanCap then
    some { s with
      agent := { s.agent with workCh := s.agent.workCh ++ [w] }
      trace := s.trace ++ [Event.sendWork w] }
  else none

/-- The branch `case work := <-self.workCh:` of the `select` in `update`, taken by loop `i`. -/
def updateRecvWork (s : World) (i : Nat) : Option World :=
  match s.loops[i]?, s.agent.workCh with
  | some LoopPc.selecting, w :: rest =>
    some { s with
      agent := { s.agent with workCh := rest }
      loops := s.loops.set i (LoopPc.gotWork w)
      trace := s.trace ++ [Event.recvWork w] }
  | _, _ => none

/-- The branch `case <-self.stop:` of the `select` in `update`, taken by loop `i`. -/
def updateRecvStop (s : World) (i : Nat) : Option World :=
  match s.loops[i]? with
  | some LoopPc.selecting =>
    if 0 < s.agent.stop then
      some { s with
        agent := { s.agent with stop := s.agent.stop - 1 }
        loops := s.loops.set i LoopPc.gotStop
        trace := s.trace ++ [Event.recvStop] }
    else none
  | _ => none

/-- The events of `if self.quitCurrentOp != nil { close(self.quitCurrentOp) }`. -/
def closeCurrent (q : Option Nat) : List Event :=
  match q with
  | some t => [Event.closeTok t]
  | none => []

/-- The critical section of `update` that loop `i` runs after its receive:
for a work item, close the current token, make a fresh one, spawn `mine`;
for the stop signal, close and clear the current token and leave the loop. -/
def updateHandle (s : World) (i : Nat) : Option World :=
  match s.loops[i]? with
  | some (LoopPc.gotWork work) =>
    some { s with
      agent := { s.agent with quitCurrentOp := some s.nextTok }
      loops := s.loops.set i LoopPc.selecting
      sealing := s.sealing ++ [(work, s.nextTok)]
      nextTok := s.nextTok + 1
      trace := s.trace ++ ([Event.lock] ++ closeCurrent s.agent.quitCurrentOp ++
        [Event.makeTok s.nextTok, Event.spawnMine work s.nextTok, Event.unlock]) }
  | some LoopPc.gotStop =>
    some { s with
      agent := { s.agent with quitCurrentOp := none }
      loops := s.loops.set i LoopPc.exited
      trace := s.trace ++ ([Event.lock] ++ closeCurrent s.agent.quitCurrentOp ++
        [Event.unlock]) }
  | _ => none

/-- The method `mine`, given the engine's `Seal`: the log calls it makes and
the send on `returnCh` it ends with, in order. -/
def mine (Seal : Nat → BlockRef → Nat → Option BlockRef × Option SealError)
    (self : CpuAgent) (work : Work) (stop : Nat) : List Event :=
  match Seal self.chain work.Block stop with
  | (some result, _) => [Event.info result, Event.ret (some ⟨work, result⟩)]
  | (none, err) =>
    (match err with
      | some e => [Event.warn e]
      | none => []) ++ [Event.ret none]

/-- The sealing task `j` runs to its end: `Seal` returns `(result, err)` and
the send on `returnCh` goes through.  A send on a nil channel never does. -/
def mineStep (s : World) (j : Nat) (result : Option BlockRef) (err : Option SealError) :
    Option World :=
  match s.sealing[j]?, s.agent.returnCh with
  | some (work, stop), some _ =>
    some { s with
      sealing := s.sealing.eraseIdx j
      trace := s.trace ++ mine (fun _ _ _ => (result, err)) s.agent work stop }
  | _, _ => none

/-- The method `GetHashRate`, given Go's conversion `int64(float64)`: the
world it leaves and the value it returns. -/
def GetHashRate (int64 : Float64 → Int) (s : World) : World × Int :=
  match s.agent.engine.pow with
  | some rate => (s, int64 rate)
  | none => (s, 0)

/-- The steps of the world. -/
inductive Action
  | start
  | stopBegin
  | stopSend
  | stopDrain
  | setReturnCh (ch : Nat)
  | submit (w : Work)
  | recvWork (i : Nat)
  | recvStop (i : Nat)
  | handle (i : Nat)
  | sealed (j : Nat) (result : Option BlockRef) (err : Option SealError)
  deriving DecidableEq, Repr

/-- One step; `none` when the step is blocked or has no goroutine to take it. -/
def step (s : World) : Action → Option World
  | Action.start => some (Start s)
  | Action.stopBegin => some (StopBegin s)
  | Action.stopSend => StopSend s
  | Action.stopDrain => StopDrain s
  | Action.setReturnCh ch => some (SetReturnCh s ch)
  | Action.submit w => Submit s w
  | Action.recvWork i => updateRecvWork s i
  | Action.recvStop i => updateRecvStop s i
  | Action.handle i => updateHandle s i
  | Action.sealed j result err => mineStep s j result err

/-- A run: the steps taken one after the other. -/
def run (s : World) : List Action → Option World
  | [] => some s
  | a :: rest => (step s a).bind (fun s1 => run s1 rest)

/-- The states some run reaches from a freshly constructed agent. -/
def Reachable (s : World) : Prop :=
  ∃ chain engine acts, run (newWorld chain engine) acts = some s

/-- Whether a loop still takes part in the `select`: it has not taken the stop signal. -/
def LoopPc.live : LoopPc → Bool
  | LoopPc.selecting => true
  | LoopPc.gotWork _ => true
  | LoopPc.gotStop => false
  | LoopPc.exited => false

/-- The number of dispatch loops that have not taken a stop signal. -/
def liveLoops (s : World) : Nat :=
  s.loops.countP LoopPc.live

/-- The warnings among the events of a sealing task. -/
def warnings (evs : List Event) : List SealError :=
  evs.filterMap (fun e => match e with
    | Event.warn err => some err
    | _ => none)

/-- The messages sent on `returnCh` among the events of a sealing task. -/
def returned (evs : List Event) : List (Option Result) :=
  evs.filterMap (fun e => match e with
    | Event.ret msg => some msg
    | _ => none)

/-- The token invariant: the current token has been made; a token has been
closed once when it has been made and is not current, and never otherwise; a
token has been made once when its number is below `nextTok`; every sealing task
was spawned right after its token was made, with all earlier tokens closed
before, its own token not yet closed and the earlier tasks holding earlier
tokens. -/
structure TokInv (s : World) : Prop where
  cur : ∀ t : Nat, s.agent.quitCurrentOp = some t → t < s.nextTok
  closed : ∀ t : Nat, s.trace.count (Event.closeTok t) =
    if t < s.nextTok ∧ s.agent.quitCurrentOp ≠ some t then 1 else 0
  made : ∀ t : Nat, s.trace.count (Event.makeTok t) = if t < s.nextTok then 1 else 0
  spawned : ∀ (w : Work) (t : Nat), Event.spawnMine w t ∈ s.trace → t < s.nextTok
  order : ∀ (pre : List Event) (w : Work) (t : Nat) (post : List Event),
    s.trace = pre ++ Event.spawnMine w t :: post →
    (∃ pre', pre = pre' ++ [Event.makeTok t] ∧ ∀ t' : Nat, t' < t → Event.closeTok t' ∈ pre') ∧
    Event.closeTok t ∉ pre ∧
    ∀ (w' : Work) (t' : Nat), Event.spawnMine w' t' ∈ pre → t' < t

/-- The counting invariant: `isMining` is 0 or 1, both channels respect their
capacity, and the loops that have not taken a stop signal are as many as
`isMining` plus the stop signals in the buffer plus the `Stop` calls standing
at the send. -/
structure CountInv (s : World) : Prop where
  mining : s.agent.isMining = 0 ∨ s.agent.isMining = 1
  stopCap : s.agent.stop ≤ chanCap
  workCap : s.agent.workCh.length ≤ chanCap
  live : (liveLoops s : Int) = s.agent.isMining + (s.agent.stop : Int) + (s.stopSending : Int)

/-- The owner invariant: a current token is set only while some dispatch loop
has not left `update`. -/
def OwnerInv (s : World) : Prop :=
  s.agent.quitCurrentOp = none ∨ ∃ pc, pc ∈ s.loops ∧ pc ≠ LoopPc.exited

/-- The state a run from `newWorld 0 ⟨none⟩` ends in (the start when it blocks). -/
def afterRun (acts : List Action) : World :=
  (run (newWorld 0 ⟨none⟩) acts).getD (newWorld 0 ⟨none⟩)

/-- A run that dispatches work 7 and then work 8 on one loop. -/
def twoDispatches : List Action :=
  [Action.start, Action.submit ⟨7⟩, Action.recvWork 0, Action.handle 0,
   Action.submit ⟨8⟩, Action.recvWork 0, Action.handle 0]

/-- A run in which `Stop` is followed by `Start` before the first loop has
taken the stop signal. -/
def quickRestart : List Action :=
  [Action.start, Action.stopBegin, Action.stopSend, Action.stopDrain, Action.start]

/-- A run that dispatches work 7, then stops the agent and lets the loop
handle the stop signal. -/
def dispatchThenStop : List Action :=
  [Action.start, Action.submit ⟨7⟩, Action.recvWork 0, Action.handle 0,
   Action.stopBegin, Action.stopSend, Action.stopDrain, Action.recvStop 0, Action.handle 0]

/-- A run that dispatches work 7 and leaves the agent running. -/
def oneDispatch : List Action :=
  [Action.start, Action.submit ⟨7⟩, Action.recvWork 0, Action.handle 0]

/-- A run with two live loops after a quick restart: the first loop takes work
7, the second takes work 8, and the second is first to lock and dispatch. -/
def restartRace : List Action :=
  quickRestart ++
    [Action.submit ⟨7⟩, Action.recvWork 0, Action.submit ⟨8⟩, Action.recvWork 1,
     Action.handle 1, Action.handle 0]

/-- The work item an event puts on `workCh`, if it is a send by the owner. -/
def Event.sentWork : Event → Option Work
  | Event.sendWork w => some w
  | _ => none

/-- The work item an event takes off `workCh`, in `update` or in the drain loop. -/
def Event.takenWork : Event → Option Work
  | Event.recvWork w => some w
  | Event.drainWork w => some w
  | _ => none

/-- The work item an event hands to a dispatch loop. -/
def Event.receivedWork : Event → Option Work
  | Event.recvWork w => some w
  | _ => none

/-- The work item an event spawns a sealing task for. -/
def Event.dispatchedWork : Event → Option Work
  | Event.spawnMine w _ => some w
  | _ => none

/-- The work items submitted so far, in the order of submission. -/
def sentWorks (tr : List Event) : List Work :=
  tr.filterMap Event.sentWork

/-- The work items taken off `workCh` so far, in order. -/
def takenWorks (tr : List Event) : List Work :=
  tr.filterMap Event.takenWork

/-- The work items received by dispatch loops so far, in order. -/
def receivedWorks (tr : List Event) : List Work :=
  tr.filterMap Event.receivedWork

/-- The work items dispatched so far, in the order their sealing tasks were spawned. -/
def dispatchedWorks (tr : List Event) : List Work :=
  tr.filterMap Event.dispatchedWork

/-- The work item a loop holds between its receive and its critical section. -/
def LoopPc.held : LoopPc → Option Work
  | LoopPc.gotWork w => some w
  | _ => none

/-- The work items the loops hold, in spawning order of the loops. -/
def inHand (loops : List LoopPc) : List Work :=
  loops.filterMap LoopPc.held

/-- The hand-off invariant: `workCh` is first in, first out, so the submitted
items are the taken ones followed by the queued ones; and while at most one
loop has been started, the received items are the dispatched ones followed by
the one the loop holds. -/
structure HandoffInv (s : World) : Prop where
  fifo : sentWorks s.trace = takenWorks s.trace ++ s.agent.workCh
  hand : s.loops.length ≤ 1 →
    receivedWorks s.trace = dispatchedWorks s.trace ++ inHand s.loops

/-! ## Invariants of the transition system -/

/-- A property that every step preserves holds along every run. -/
theorem run_preserves (P : World → Prop)
    (hstep : ∀ s a s', P s → step s a = some s' → P s') :
    ∀ acts s s', P s → run s acts = some s' → P s' := by
  intro acts
  induction acts with
  | nil =>
    intro s s' hP h
    simp only [run, Option.some.injEq] at h
    exact h ▸ hP
  | cons a rest ih =>
    intro s s' hP h
    simp only [run] at h
    cases hsa : step s a with
    | none => simp [hsa] at h
    | some s1 =>
      rw [hsa] at h
      exact ih s1 s' (hstep s a s1 hP hsa) h

/-- A property of every fresh world that every step preserves holds in every
reachable state. -/
theorem reachable_preserves (P : World → Prop)
    (hinit : ∀ chain engine, P (newWorld chain engine))
    (hstep : ∀ s a s', P s → step s a = some s' → P s') :
    ∀ s, Reachable s → P s := by
  rintro s ⟨chain, engine, acts, h⟩
  exact run_preserves P hstep acts _ s (hinit chain engine) h

/-- The events of `mine` are log calls and sends on `returnCh`. -/
theorem mem_mine {Seal : Nat → BlockRef → Nat → Option BlockRef × Option SealError}
    {a : CpuAgent} {w : Work} {t : Nat} {e : Event} (h : e ∈ mine Seal a w t) :
    (∃ b, e = Event.info b) ∨ (∃ err, e = Event.warn err) ∨ (∃ msg, e = Event.ret msg) := by
  unfold mine at h
  split at h
  · simp at h
    rcases h with h | h
    · exact Or.inl ⟨_, h⟩
    · exact Or.inr (Or.inr ⟨_, h⟩)
  · split at h
    · simp at h
      rcases h with h | h
      · exact Or.inr (Or.inl ⟨_, h⟩)
      · exact Or.inr (Or.inr ⟨_, h⟩)
    · simp at h
      exact Or.inr (Or.inr ⟨_, h⟩)

/-- How a step acts on the tokens: it is quiet, a dispatch or a cancel. -/
theorem step_tokens (s s' : World) (a : Action) (hs : step s a = some s') :
    (∃ evs, s'.trace = s.trace ++ evs ∧ s'.nextTok = s.nextTok ∧
        s'.agent.quitCurrentOp = s.agent.quitCurrentOp ∧
        (∀ t, Event.closeTok t ∉ evs) ∧ (∀ t, Event.makeTok t ∉ evs) ∧
        (∀ w t, Event.spawnMine w t ∉ evs)) ∨
    (∃ w, s'.trace = s.trace ++ ([Event.lock] ++ closeCurrent s.agent.quitCurrentOp ++
          [Event.makeTok s.nextTok, Event.spawnMine w s.nextTok, Event.unlock]) ∧
        s'.nextTok = s.nextTok + 1 ∧ s'.agent.quitCurrentOp = some s.nextTok) ∨
    (s'.trace = s.trace ++ ([Event.lock] ++ closeCurrent s.agent.quitCurrentOp ++
          [Event.unlock]) ∧
        s'.nextTok = s.nextTok ∧ s'.agent.quitCurrentOp = none) := by
  cases a with
  | start =>
    simp only [step, Start, CompareAndSwapInt32, Option.some.injEq] at hs
    left
    split at hs
    · exact ⟨[], by subst hs; simp⟩
    · rename_i v hv
      subst hs
      exact ⟨[Event.spawnUpdate], by simp⟩
  | stopBegin =>
    simp only [step, StopBegin, CompareAndSwapInt32, Option.some.injEq] at hs
    left
    split at hs <;> subst hs <;> exact ⟨[], by simp⟩
  | stopSend =>
    simp only [step, StopSend] at hs
    left
    split at hs
    · simp at hs
    · split at hs
      · simp only [Option.some.injEq] at hs
        subst hs
        exact ⟨[Event.sendStop], by simp⟩
      · simp at hs
  | stopDrain =>
    simp only [step, StopDrain] at hs
    left
    split at hs
    · simp at hs
    · split at hs
      · rename_i w rest hw
        simp only [Option.some.injEq] at hs
        subst hs
        exact ⟨[Event.drainWork w], by simp⟩
      · simp only [Option.some.injEq] at hs
        subst hs
        exact ⟨[], by simp⟩
  | setReturnCh ch =>
    simp only [step, SetReturnCh, Option.some.injEq] at hs
    subst hs
    exact Or.inl ⟨[], by simp⟩
  | submit w =>
    simp only [step, Submit] at hs
    left
    split at hs
    · simp only [Option.some.injEq] at hs
      subst hs
      exact ⟨[Event.sendWork w], by simp⟩
    · simp at hs
  | recvWork i =>
    simp only [step, updateRecvWork] at hs
    left
    split at hs
    · rename_i w rest _ _
      simp only [Option.some.injEq] at hs
      subst hs
      exact ⟨[Event.recvWork w], by simp⟩
    · simp at hs
  | recvStop i =>
    simp only [step, updateRecvStop] at hs
    left
    split at hs
    · split at hs
      · simp only [Option.some.injEq] at hs
        subst hs
        exact ⟨[Event.recvStop], by simp⟩
      · simp at hs
    · simp at hs
  | handle i =>
    simp only [step, updateHandle] at hs
    split at hs
    · rename_i w _
      simp only [Option.some.injEq] at hs
      subst hs
      exact Or.inr (Or.inl ⟨w, rfl, rfl, rfl⟩)
    · simp only [Option.some.injEq] at hs
      subst hs
      exact Or.inr (Or.inr ⟨rfl, rfl, rfl⟩)
    · simp at hs
  | sealed j result err =>
    simp only [step, mineStep] at hs
    left
    split at hs
    · rename_i w t _ _ _
      simp only [Option.some.injEq] at hs
      subst hs
      refine ⟨_, rfl, rfl, rfl, ?_, ?_, ?_⟩
      · intro t' h
        rcases mem_mine h with ⟨_, h⟩ | ⟨_, h⟩ | ⟨_, h⟩ <;> cases h
      · intro t' h
        rcases mem_mine h with ⟨_, h⟩ | ⟨_, h⟩ | ⟨_, h⟩ <;> cases h
      · intro w' t' h
        rcases mem_mine h with ⟨_, h⟩ | ⟨_, h⟩ | ⟨_, h⟩ <;> cases h
    · simp at hs

/-- Where an element of `tr ++ evs` lies: in `tr` or in `evs`. -/
theorem append_split {α : Type} {pre post tr evs : List α} {x : α}
    (h : tr ++ evs = pre ++ x :: post) :
    (∃ post', tr = pre ++ x :: post') ∨ (∃ pre', pre = tr ++ pre' ∧ evs = pre' ++ x :: post) := by
  rw [List.append_eq_append_iff] at h
  rcases h with ⟨a', h1, h2⟩ | ⟨c', h1, h2⟩
  · exact Or.inr ⟨a', h1, h2⟩
  · cases c' with
    | nil =>
      simp only [List.nil_append] at h2
      exact Or.inr ⟨[], by simpa using h1.symm, h2.symm⟩
    | cons y c'' =>
      simp only [List.cons_append, List.cons.injEq] at h2
      obtain ⟨rfl, _⟩ := h2
      exact Or.inl ⟨c'', h1⟩

/-- The token invariant holds in a fresh world. -/
theorem tokInv_init (chain : Nat) (engine : Engine) : TokInv (newWorld chain engine) := by
  constructor
  · intro t h
    simp [newWorld, NewCpuAgent] at h
  · intro t
    simp [newWorld, NewCpuAgent]
  · intro t
    simp [newWorld]
  · intro w t h
    simp [newWorld] at h
  · intro pre w t post h
    simp [newWorld] at h

/-- Closing the current token closes that token once and no other. -/
theorem count_closeCurrent (q : Option Nat) (t : Nat) :
    (closeCurrent q).count (Event.closeTok t) = if q = some t then 1 else 0 := by
  cases q with
  | none => simp [closeCurrent]
  | some u =>
    simp only [closeCurrent, List.count_cons, List.count_nil, zero_add, Option.some.injEq,
      beq_iff_eq, Event.closeTok.injEq]

/-- Closing the current token makes no token. -/
theorem count_make_closeCurrent (q : Option Nat) (t : Nat) :
    (closeCurrent q).count (Event.makeTok t) = 0 := by
  cases q <;> simp [closeCurrent]

/-- Closing the current token spawns no sealing task. -/
theorem spawn_not_mem_closeCurrent (q : Option Nat) (w : Work) (t : Nat) :
    Event.spawnMine w t ∉ closeCurrent q := by
  cases q <;> simp [closeCurrent]

/-- Closing the current token closes `t` exactly when `t` is current. -/
theorem mem_closeCurrent (q : Option Nat) (t : Nat) :
    Event.closeTok t ∈ closeCurrent q ↔ q = some t := by
  cases q <;> simp [closeCurrent, eq_comm]

/-- Every step preserves the token invariant. -/
theorem tokInv_step (s : World) (a : Action) (s' : World) (h : TokInv s)
    (hs : step s a = some s') : TokInv s' := by
  rcases step_tokens s s' a hs with
    ⟨evs, htr, hn, hq, hc, hm, hsp⟩ | ⟨w, htr, hn, hq⟩ | ⟨htr, hn, hq⟩
  · constructor
    · intro t ht
      rw [hq] at ht
      rw [hn]
      exact h.cur t ht
    · intro t
      rw [htr, hn, hq, List.count_append, h.closed t, List.count_eq_zero_of_not_mem (hc t)]
      simp
    · intro t
      rw [htr, hn, List.count_append, h.made t, List.count_eq_zero_of_not_mem (hm t)]
      simp
    · intro w t hmem
      rw [htr, List.mem_append] at hmem
      rw [hn]
      rcases hmem with hmem | hmem
      · exact h.spawned w t hmem
      · exact absurd hmem (hsp w t)
    · intro pre w t post hpre
      rw [htr] at hpre
      rcases append_split hpre with ⟨post', h1⟩ | ⟨pre', _, h2⟩
      · exact h.order pre w t post' h1
      · exact absurd (h2 ▸ List.mem_append_right pre' (List.mem_cons_self _ _)) (hsp w t)
  · constructor
    · intro t ht
      rw [hq] at ht
      simp only [Option.some.injEq] at ht
      rw [hn]
      omega
    · intro t
      have hcl := h.closed t
      have hcur := h.cur t
      rw [htr, hn, hq]
      simp only [List.count_append, hcl, count_closeCurrent, List.count_cons, List.count_nil,
        beq_iff_eq, Option.some.injEq]
      have e1 : (t < s.nextTok + 1 ∧ ¬ s.nextTok = t) ↔ t < s.nextTok := by omega
      simp only [ne_eq, e1, reduceCtorEq, if_false, add_zero, zero_add]
      by_cases h3 : s.agent.quitCurrentOp = some t
      · simp [h3, hcur h3, e1]
      · simp [h3, e1]
    · intro t
      rw [htr, hn]
      simp only [List.count_append, h.made t, count_make_closeCurrent, List.count_cons,
        List.count_nil, beq_iff_eq]
      simp only [reduceCtorEq, if_false, add_zero, zero_add, Event.makeTok.injEq]
      split_ifs <;> omega
    · intro w' t hmem
      rw [htr, List.mem_append] at hmem
      rw [hn]
      rcases hmem with hmem | hmem
      · have := h.spawned w' t hmem
        omega
      · simp [spawn_not_mem_closeCurrent] at hmem
        omega
    · intro pre w' t post hpre
      rw [htr] at hpre
      rcases append_split hpre with ⟨post', h1⟩ | ⟨pre', h1, h2⟩
      · exact h.order pre w' t post' h1
      · have h3 : ([Event.lock] ++ closeCurrent s.agent.quitCurrentOp ++
            [Event.makeTok s.nextTok]) ++ Event.spawnMine w s.nextTok :: [Event.unlock]
            = pre' ++ Event.spawnMine w' t :: post := by
          rw [← h2]
          simp
        have hnot1 : Event.spawnMine w' t ∉ [Event.lock] ++ closeCurrent s.agent.quitCurrentOp ++
            [Event.makeTok s.nextTok] := by
          simp [spawn_not_mem_closeCurrent]
        have hnot2 : Event.spawnMine w' t ∉ [Event.unlock] := by simp
        obtain ⟨hp, he, _⟩ := (List.append_cons_inj_of_not_mem hnot1 hnot2).1 h3
        simp only [Event.spawnMine.injEq] at he
        obtain ⟨_, rfl⟩ := he
        refine ⟨⟨s.trace ++ ([Event.lock] ++ closeCurrent s.agent.quitCurrentOp), ?_, ?_⟩,
          ?_, ?_⟩
        · rw [h1, ← hp]
          simp
        rotate_left
        · rw [h1, ← hp]
          intro hmem
          simp only [List.mem_append, List.mem_singleton, reduceCtorEq, or_false, false_or,
            mem_closeCurrent] at hmem
          rcases hmem with hmem | hmem
          · have hc0 := h.closed s.nextTok
            simp only [lt_irrefl, false_and, if_false] at hc0
            exact (List.count_eq_zero.1 hc0) hmem
          · have := h.cur _ hmem
            omega
        · rw [h1, ← hp]
          intro w2 t2 hmem
          simp only [List.mem_append, List.mem_singleton, reduceCtorEq, or_false,
            spawn_not_mem_closeCurrent] at hmem
          exact h.spawned w2 t2 hmem
        · intro t' ht'
          have hcl := h.closed t'
          by_cases hqt : s.agent.quitCurrentOp = some t'
          · apply List.mem_append_right
            apply List.mem_append_right
            exact (mem_closeCurrent _ _).2 hqt
          · apply List.mem_append_left
            rw [if_pos ⟨ht', hqt⟩] at hcl
            exact List.count_pos_iff.1 (by omega)
  · constructor
    · intro t ht
      rw [hq] at ht
      cases ht
    · intro t
      have hcl := h.closed t
      have hcur := h.cur t
      rw [htr, hn, hq]
      simp only [List.count_append, hcl, count_closeCurrent, List.count_cons, List.count_nil,
        beq_iff_eq]
      by_cases hqt : s.agent.quitCurrentOp = some t
      · have := hcur hqt
        simp [hqt, this]
      · simp [hqt]
    · intro t
      rw [htr, hn]
      simp only [List.count_append, h.made t, count_make_closeCurrent, List.count_cons,
        List.count_nil, beq_iff_eq]
      simp
    · intro w t hmem
      rw [htr, List.mem_append] at hmem
      rw [hn]
      rcases hmem with hmem | hmem
      · exact h.spawned w t hmem
      · simp [spawn_not_mem_closeCurrent] at hmem
    · intro pre w t post hpre
      rw [htr] at hpre
      rcases append_split hpre with ⟨post', h1⟩ | ⟨pre', _, h2⟩
      · exact h.order pre w t post' h1
      · have hmem : Event.spawnMine w t ∈ [Event.lock] ++ closeCurrent s.agent.quitCurrentOp ++
            [Event.unlock] := h2 ▸ List.mem_append_right pre' (List.mem_cons_self _ _)
        simp [spawn_not_mem_closeCurrent] at hmem

/-- The token invariant holds in every reachable state. -/
theorem tokInv_reachable (s : World) (h : Reachable s) : TokInv s :=
  reachable_preserves TokInv tokInv_init (fun s a s' hP hs => tokInv_step s a s' hP hs) s h

/-- Replacing the program counter of one loop changes the count of live loops
by that loop alone. -/
theorem countP_set_live :
    ∀ (l : List LoopPc) (i : Nat) (a b : LoopPc), l[i]? = some a →
      (l.set i b).countP LoopPc.live + (if a.live then 1 else 0) =
        l.countP LoopPc.live + (if b.live then 1 else 0)
  | [], _, _, _, h => by simp at h
  | x :: rest, 0, a, b, h => by
    have hx : x = a := by simpa using h
    subst hx
    simp only [List.set_cons_zero, List.countP_cons]
    omega
  | x :: rest, i + 1, a, b, h => by
    have hrec := countP_set_live rest i a b (by simpa using h)
    simp only [List.set_cons_succ, List.countP_cons]
    omega

/-- The counting invariant holds in a fresh world. -/
theorem countInv_init (chain : Nat) (engine : Engine) : CountInv (newWorld chain engine) := by
  constructor <;> simp [newWorld, NewCpuAgent, liveLoops, chanCap]

/-- Every step preserves the counting invariant. -/
theorem countInv_step (s : World) (a : Action) (s' : World) (h : CountInv s)
    (hs : step s a = some s') : CountInv s' := by
  obtain ⟨hm, hsc, hwc, hl⟩ := h
  cases a with
  | start =>
    simp only [step, Start, CompareAndSwapInt32, Option.some.injEq] at hs
    split at hs
    · subst hs
      exact ⟨hm, hsc, hwc, hl⟩
    · rename_i v hv
      subst hs
      split at hv
      · rename_i h0
        simp only [Prod.mk.injEq, and_true] at hv
        subst hv
        refine ⟨Or.inr rfl, hsc, hwc, ?_⟩
        simp only [liveLoops, List.countP_append, List.countP_cons, List.countP_nil,
          LoopPc.live] at hl ⊢
        simp only [h0] at hl
        push_cast
        omega
      · simp at hv
  | stopBegin =>
    simp only [step, StopBegin, CompareAndSwapInt32, Option.some.injEq] at hs
    split at hs
    · subst hs
      exact ⟨hm, hsc, hwc, hl⟩
    · rename_i v hv
      subst hs
      split at hv
      · rename_i h1
        simp only [Prod.mk.injEq, and_true] at hv
        subst hv
        refine ⟨Or.inl rfl, hsc, hwc, ?_⟩
        simp only [liveLoops] at hl ⊢
        simp only [h1] at hl
        push_cast
        omega
      · simp at hv
  | stopSend =>
    simp only [step, StopSend] at hs
    split at hs
    · simp at hs
    · rename_i hpos
      split at hs
      · rename_i hlt
        simp only [Option.some.injEq] at hs
        subst hs
        refine ⟨hm, ?_, hwc, ?_⟩
        · simp only [chanCap] at hlt ⊢
          omega
        · simp only [liveLoops] at hl ⊢
          push_cast
          omega
      · simp at hs
  | stopDrain =>
    simp only [step, StopDrain] at hs
    split at hs
    · simp at hs
    · split at hs
      · rename_i w rest hw
        simp only [Option.some.injEq] at hs
        subst hs
        refine ⟨hm, hsc, ?_, hl⟩
        rw [hw] at hwc
        simp only [List.length_cons] at hwc ⊢
        omega
      · simp only [Option.some.injEq] at hs
        subst hs
        exact ⟨hm, hsc, hwc, hl⟩
  | setReturnCh ch =>
    simp only [step, SetReturnCh, Option.some.injEq] at hs
    subst hs
    exact ⟨hm, hsc, hwc, hl⟩
  | submit w =>
    simp only [step, Submit] at hs
    split at hs
    · rename_i hlt
      simp only [Option.some.injEq] at hs
      subst hs
      refine ⟨hm, hsc, ?_, hl⟩
      simp only [List.length_append, List.length_singleton]
      omega
    · simp at hs
  | recvWork i =>
    simp only [step, updateRecvWork] at hs
    split at hs
    · rename_i w rest hi hw
      simp only [Option.some.injEq] at hs
      subst hs
      refine ⟨hm, hsc, ?_, ?_⟩
      · rw [hw] at hwc
        simp only [List.length_cons] at hwc ⊢
        omega
      · have := countP_set_live s.loops i _ (LoopPc.gotWork w) hi
        simp only [LoopPc.live, if_true] at this
        simp only [liveLoops] at hl ⊢
        omega
    · simp at hs
  | recvStop i =>
    simp only [step, updateRecvStop] at hs
    split at hs
    · rename_i hi
      split at hs
      · rename_i hpos
        simp only [Option.some.injEq] at hs
        subst hs
        refine ⟨hm, ?_, hwc, ?_⟩
        · show s.agent.stop - 1 ≤ chanCap
          omega
        · have := countP_set_live s.loops i _ LoopPc.gotStop hi
          simp only [LoopPc.live, if_true] at this
          simp only [liveLoops] at hl ⊢
          simp only [Bool.false_eq_true, if_false] at this
          omega
      · simp at hs
    · simp at hs
  | handle i =>
    simp only [step, updateHandle] at hs
    split at hs
    · rename_i w hi
      simp only [Option.some.injEq] at hs
      subst hs
      refine ⟨hm, hsc, hwc, ?_⟩
      have := countP_set_live s.loops i _ LoopPc.selecting hi
      simp only [LoopPc.live, if_true] at this
      simp only [liveLoops] at hl ⊢
      omega
    · rename_i hi
      simp only [Option.some.injEq] at hs
      subst hs
      refine ⟨hm, hsc, hwc, ?_⟩
      have := countP_set_live s.loops i _ LoopPc.exited hi
      simp only [LoopPc.live, Bool.false_eq_true, if_false] at this
      simp only [liveLoops] at hl ⊢
      omega
    · simp at hs
  | sealed j result err =>
    simp only [step, mineStep] at hs
    split at hs
    · simp only [Option.some.injEq] at hs
      subst hs
      exact ⟨hm, hsc, hwc, hl⟩
    · simp at hs

/-- The counting invariant holds in every reachable state. -/
theorem countInv_reachable (s : World) (h : Reachable s) : CountInv s :=
  reachable_preserves CountInv countInv_init (fun s a s' hP hs => countInv_step s a s' hP hs) s h

/-- An index that holds an element lies within the list. -/
theorem lt_length_of_getElem? {α : Type} {l : List α} {i : Nat} {a : α} (h : l[i]? = some a) :
    i < l.length := by
  obtain ⟨hlt, _⟩ := List.getElem?_eq_some.1 h
  exact hlt

/-- The owner invariant holds in a fresh world. -/
theorem ownerInv_init (chain : Nat) (engine : Engine) : OwnerInv (newWorld chain engine) :=
  Or.inl rfl

/-- Every step preserves the owner invariant. -/
theorem ownerInv_step (s : World) (a : Action) (s' : World) (h : OwnerInv s)
    (hs : step s a = some s') : OwnerInv s' := by
  cases a with
  | start =>
    simp only [step, Start, CompareAndSwapInt32, Option.some.injEq] at hs
    split at hs
    · subst hs
      exact h
    · subst hs
      exact Or.inr ⟨LoopPc.selecting, by simp, by simp⟩
  | stopBegin =>
    simp only [step, StopBegin, CompareAndSwapInt32, Option.some.injEq] at hs
    split at hs <;> subst hs <;> exact h
  | stopSend =>
    simp only [step, StopSend] at hs
    split at hs
    · simp at hs
    · split at hs
      · simp only [Option.some.injEq] at hs
        subst hs
        exact h
      · simp at hs
  | stopDrain =>
    simp only [step, StopDrain] at hs
    split at hs
    · simp at hs
    · split at hs <;>
      · simp only [Option.some.injEq] at hs
        subst hs
        exact h
  | setReturnCh ch =>
    simp only [step, SetReturnCh, Option.some.injEq] at hs
    subst hs
    exact h
  | submit w =>
    simp only [step, Submit] at hs
    split at hs
    · simp only [Option.some.injEq] at hs
      subst hs
      exact h
    · simp at hs
  | recvWork i =>
    simp only [step, updateRecvWork] at hs
    split at hs
    · rename_i w rest hi hw
      simp only [Option.some.injEq] at hs
      subst hs
      exact Or.inr ⟨LoopPc.gotWork w, List.mem_set _ _ (lt_length_of_getElem? hi) _, by simp⟩
    · simp at hs
  | recvStop i =>
    simp only [step, updateRecvStop] at hs
    split at hs
    · rename_i hi
      split at hs
      · simp only [Option.some.injEq] at hs
        subst hs
        exact Or.inr ⟨LoopPc.gotStop, List.mem_set _ _ (lt_length_of_getElem? hi) _, by simp⟩
      · simp at hs
    · simp at hs
  | handle i =>
    simp only [step, updateHandle] at hs
    split at hs
    · rename_i w hi
      simp only [Option.some.injEq] at hs
      subst hs
      exact Or.inr ⟨LoopPc.selecting, List.mem_set _ _ (lt_length_of_getElem? hi) _, by simp⟩
    · simp only [Option.some.injEq] at hs
      subst hs
      exact Or.inl rfl
    · simp at hs
  | sealed j result err =>
    simp only [step, mineStep] at hs
    split at hs
    · simp only [Option.some.injEq] at hs
      subst hs
      exact h
    · simp at hs

/-- The owner invariant holds in every reachable state. -/
theorem ownerInv_reachable (s : World) (h : Reachable s) : OwnerInv s :=
  reachable_preserves OwnerInv ownerInv_init (fun s a s' hP hs => ownerInv_step s a s' hP hs) s h

/-- A loop that has left `update` stays there whatever step is taken. -/
theorem exited_step (s : World) (a : Action) (s' : World) (i : Nat)
    (hi : s.loops[i]? = some LoopPc.exited) (hs : step s a = some s') :
    s'.loops[i]? = some LoopPc.exited := by
  have key : ∀ (j : Nat) (pc pc' : LoopPc), s.loops[j]? = some pc → pc ≠ LoopPc.exited →
      (s.loops.set j pc')[i]? = some LoopPc.exited := by
    intro j pc pc' hj hne
    have hji : j ≠ i := by
      rintro rfl
      rw [hi] at hj
      exact hne (Option.some.inj hj).symm
    rw [List.getElem?_set_ne hji]
    exact hi
  cases a with
  | start =>
    simp only [step, Start, CompareAndSwapInt32, Option.some.injEq] at hs
    split at hs
    · subst hs
      exact hi
    · subst hs
      show (s.loops ++ [LoopPc.selecting])[i]? = _
      rw [List.getElem?_append_left (lt_length_of_getElem? hi)]
      exact hi
  | stopBegin =>
    simp only [step, StopBegin, CompareAndSwapInt32, Option.some.injEq] at hs
    split at hs <;> subst hs <;> exact hi
  | stopSend =>
    simp only [step, StopSend] at hs
    split at hs
    · simp at hs
    · split at hs
      · simp only [Option.some.injEq] at hs
        subst hs
        exact hi
      · simp at hs
  | stopDrain =>
    simp only [step, StopDrain] at hs
    split at hs
    · simp at hs
    · split at hs <;>
      · simp only [Option.some.injEq] at hs
        subst hs
        exact hi
  | setReturnCh ch =>
    simp only [step, SetReturnCh, Option.some.injEq] at hs
    subst hs
    exact hi
  | submit w =>
    simp only [step, Submit] at hs
    split at hs
    · simp only [Option.some.injEq] at hs
      subst hs
      exact hi
    · simp at hs
  | recvWork j =>
    simp only [step, updateRecvWork] at hs
    split at hs
    · rename_i w rest hj hw
      simp only [Option.some.injEq] at hs
      subst hs
      exact key j _ _ hj (by simp)
    · simp at hs
  | recvStop j =>
    simp only [step, updateRecvStop] at hs
    split at hs
    · rename_i hj
      split at hs
      · simp only [Option.some.injEq] at hs
        subst hs
        exact key j _ _ hj (by simp)
      · simp at hs
    · simp at hs
  | handle j =>
    simp only [step, updateHandle] at hs
    split at hs
    · rename_i w hj
      simp only [Option.some.injEq] at hs
      subst hs
      exact key j _ _ hj (by simp)
    · rename_i hj
      simp only [Option.some.injEq] at hs
      subst hs
      exact key j _ _ hj (by simp)
    · simp at hs
  | sealed j result err =>
    simp only [step, mineStep] at hs
    split at hs
    · simp only [Option.some.injEq] at hs
      subst hs
      exact hi
    · simp at hs

/-- A loop that has left `update` takes no step of its own. -/
theorem exited_blocked (s : World) (i : Nat) (hi : s.loops[i]? = some LoopPc.exited) :
    updateRecvWork s i = none ∧ updateRecvStop s i = none ∧ updateHandle s i = none := by
  refine ⟨?_, ?_, ?_⟩
  · simp only [updateRecvWork, hi]
  · simp only [updateRecvStop, hi]
  · simp only [updateHandle, hi]

/-- The drain loop, started inside a `Stop` call with enough fuel, returns:
it has emptied `workCh`, recorded every item it took, and touched nothing else. -/
theorem stopDrainLoop_eq (fuel : Nat) (s : World) (hd : 0 < s.stopDraining)
    (hf : s.agent.workCh.length < fuel) :
    StopDrainLoop fuel s = some { s with
      agent := { s.agent with workCh := [] }
      stopDraining := s.stopDraining - 1
      trace := s.trace ++ s.agent.workCh.map Event.drainWork } := by
  induction fuel generalizing s with
  | zero => omega
  | succ fuel ih =>
    obtain ⟨⟨workCh, stop, q, r, c, e, m⟩, loops, ss, sd, sealing, n, tr⟩ := s
    simp only at hd hf
    cases workCh with
    | nil =>
      have hne : sd ≠ 0 := by omega
      simp [StopDrainLoop, StopDrain, hne]
    | cons w rest =>
      have hne : sd ≠ 0 := by omega
      simp only [List.length_cons] at hf
      simp only [StopDrainLoop, StopDrain, hne, if_false, Option.some_bind]
      rw [ih _ (by simpa using hd) (by simpa using hf)]
      simp

/-- The call `Stop` on a running agent: blocked when `stop` is full, and
otherwise the state it returns in. -/
theorem Stop_running (s : World) (h : s.agent.isMining = 1) :
    Stop s = if s.agent.stop < chanCap then
      some { s with
        agent := { s.agent with isMining := 0, stop := s.agent.stop + 1, workCh := [] }
        trace := s.trace ++ ([Event.sendStop] ++ s.agent.workCh.map Event.drainWork) }
      else none := by
  obtain ⟨⟨workCh, stop, q, r, c, e, m⟩, loops, ss, sd, sealing, n, tr⟩ := s
  simp only at h
  subst h
  by_cases hlt : stop < chanCap
  · simp only [Stop, CompareAndSwapInt32, StopBegin, StopSend, if_true, hlt,
      Nat.add_one_ne_zero, if_false, Option.some_bind]
    rw [stopDrainLoop_eq _ _ (by simp) (by simp)]
    simp
  · simp [Stop, CompareAndSwapInt32, StopBegin, StopSend, hlt]

/-- The events of `mine` neither move work items nor spawn sealing tasks. -/
theorem works_mine (Seal : Nat → BlockRef → Nat → Option BlockRef × Option SealError)
    (a : CpuAgent) (w : Work) (t : Nat) :
    sentWorks (mine Seal a w t) = [] ∧ takenWorks (mine Seal a w t) = [] ∧
    receivedWorks (mine Seal a w t) = [] ∧ dispatchedWorks (mine Seal a w t) = [] := by
  unfold mine
  rcases Seal a.chain w.Block t with ⟨_ | result, _ | e⟩ <;>
    simp [sentWorks, takenWorks, receivedWorks, dispatchedWorks, Event.sentWork,
      Event.takenWork, Event.receivedWork, Event.dispatchedWork]

/-- Closing the current token neither moves work items nor spawns sealing tasks. -/
theorem works_closeCurrent (q : Option Nat) :
    sentWorks (closeCurrent q) = [] ∧ takenWorks (closeCurrent q) = [] ∧
    receivedWorks (closeCurrent q) = [] ∧ dispatchedWorks (closeCurrent q) = [] := by
  cases q <;>
    simp [closeCurrent, sentWorks, takenWorks, receivedWorks, dispatchedWorks, Event.sentWork,
      Event.takenWork, Event.receivedWork, Event.dispatchedWork]

/-- A list of at most one loop whose entry `i` is `pc` is `[pc]`, with `i = 0`. -/
theorem loops_single {l : List LoopPc} {i : Nat} {pc : LoopPc} (hlen : l.length ≤ 1)
    (hi : l[i]? = some pc) : l = [pc] ∧ i = 0 := by
  match l, i, hi with
  | [x], 0, hi => simpa using hi
  | [x], j + 1, hi => simp at hi
  | [], _, hi => simp at hi
  | x :: y :: rest, _, _ => simp at hlen

/-- The hand-off invariant holds in a fresh world. -/
theorem handoffInv_init (chain : Nat) (engine : Engine) : HandoffInv (newWorld chain engine) := by
  constructor <;>
    simp [newWorld, NewCpuAgent, sentWorks, takenWorks, receivedWorks, dispatchedWorks, inHand]

/-- Every step preserves the hand-off invariant. -/
theorem handoffInv_step (s : World) (a : Action) (s' : World) (h : HandoffInv s)
    (hs : step s a = some s') : HandoffInv s' := by
  obtain ⟨hf, hh⟩ := h
  simp only [sentWorks, takenWorks, receivedWorks, dispatchedWorks] at hf hh
  cases a with
  | start =>
    simp only [step, Start, CompareAndSwapInt32, Option.some.injEq] at hs
    split at hs
    · subst hs
      exact ⟨hf, hh⟩
    · subst hs
      constructor
      · simpa [sentWorks, takenWorks, Event.sentWork, Event.takenWork] using hf
      · intro hlen
        simp only [List.length_append, List.length_singleton] at hlen
        have hnil : s.loops = [] := List.length_eq_zero.1 (by omega)
        have := hh (by omega)
        simp only [hnil, inHand, List.filterMap_nil, List.append_nil] at this
        simp [receivedWorks, dispatchedWorks, Event.receivedWork, Event.dispatchedWork, inHand,
          LoopPc.held, hnil, this]
  | stopBegin =>
    simp only [step, StopBegin, CompareAndSwapInt32, Option.some.injEq] at hs
    split at hs <;> subst hs <;> exact ⟨hf, hh⟩
  | stopSend =>
    simp only [step, StopSend] at hs
    split at hs
    · simp at hs
    · split at hs
      · simp only [Option.some.injEq] at hs
        subst hs
        constructor
        · simpa [sentWorks, takenWorks, Event.sentWork, Event.takenWork] using hf
        · intro hlen
          simpa [receivedWorks, dispatchedWorks, Event.receivedWork, Event.dispatchedWork]
            using hh hlen
      · simp at hs
  | stopDrain =>
    simp only [step, StopDrain] at hs
    split at hs
    · simp at hs
    · split at hs
      · rename_i w rest hw
        simp only [Option.some.injEq] at hs
        subst hs
        constructor
        · rw [hw] at hf
          simp [sentWorks, takenWorks, Event.sentWork, Event.takenWork, hf]
        · intro hlen
          simpa [receivedWorks, dispatchedWorks, Event.receivedWork, Event.dispatchedWork]
            using hh hlen
      · simp only [Option.some.injEq] at hs
        subst hs
        exact ⟨hf, hh⟩
  | setReturnCh ch =>
    simp only [step, SetReturnCh, Option.some.injEq] at hs
    subst hs
    exact ⟨hf, hh⟩
  | submit w =>
    simp only [step, Submit] at hs
    split at hs
    · simp only [Option.some.injEq] at hs
      subst hs
      constructor
      · simp [sentWorks, takenWorks, Event.sentWork, Event.takenWork, hf]
      · intro hlen
        simpa [receivedWorks, dispatchedWorks, Event.receivedWork, Event.dispatchedWork]
          using hh hlen
    · simp at hs
  | recvWork i =>
    simp only [step, updateRecvWork] at hs
    split at hs
    · rename_i w rest hi hw
      simp only [Option.some.injEq] at hs
      subst hs
      constructor
      · rw [hw] at hf
        simp [sentWorks, takenWorks, Event.sentWork, Event.takenWork, hf]
      · intro hlen
        simp only [List.length_set] at hlen
        obtain ⟨hl, h0⟩ := loops_single hlen hi
        have := hh hlen
        subst h0
        simp only [hl, inHand, List.filterMap_cons, LoopPc.held, List.filterMap_nil,
          List.append_nil] at this
        simp [receivedWorks, dispatchedWorks, Event.receivedWork, Event.dispatchedWork, inHand,
          LoopPc.held, hl, this]
    · simp at hs
  | recvStop i =>
    simp only [step, updateRecvStop] at hs
    split at hs
    · rename_i hi
      split at hs
      · simp only [Option.some.injEq] at hs
        subst hs
        constructor
        · simpa [sentWorks, takenWorks, Event.sentWork, Event.takenWork] using hf
        · intro hlen
          simp only [List.length_set] at hlen
          obtain ⟨hl, h0⟩ := loops_single hlen hi
          have := hh hlen
          subst h0
          simp only [hl, inHand, List.filterMap_cons, LoopPc.held, List.filterMap_nil,
            List.append_nil] at this
          simp [receivedWorks, dispatchedWorks, Event.receivedWork, Event.dispatchedWork, inHand,
            LoopPc.held, hl, this]
      · simp at hs
    · simp at hs
  | handle i =>
    obtain ⟨c1, c2, c3, c4⟩ := works_closeCurrent s.agent.quitCurrentOp
    simp only [sentWorks, takenWorks, receivedWorks, dispatchedWorks] at c1 c2 c3 c4
    simp only [step, updateHandle] at hs
    split at hs
    · rename_i w hi
      simp only [Option.some.injEq] at hs
      subst hs
      constructor
      · simp [sentWorks, takenWorks, Event.sentWork, Event.takenWork, hf, c1, c2]
      · intro hlen
        simp only [List.length_set] at hlen
        obtain ⟨hl, h0⟩ := loops_single hlen hi
        have := hh hlen
        subst h0
        simp only [hl, inHand, List.filterMap_cons, LoopPc.held, List.filterMap_nil] at this
        simp [receivedWorks, dispatchedWorks, Event.receivedWork, Event.dispatchedWork, inHand,
          LoopPc.held, hl, this, c3, c4]
    · rename_i hi
      simp only [Option.some.injEq] at hs
      subst hs
      constructor
      · simp [sentWorks, takenWorks, Event.sentWork, Event.takenWork, hf, c1, c2]
      · intro hlen
        simp only [List.length_set] at hlen
        obtain ⟨hl, h0⟩ := loops_single hlen hi
        have := hh hlen
        subst h0
        simp only [hl, inHand, List.filterMap_cons, LoopPc.held, List.filterMap_nil,
          List.append_nil] at this
        simp [receivedWorks, dispatchedWorks, Event.receivedWork, Event.dispatchedWork, inHand,
          LoopPc.held, hl, this, c3, c4]
    · simp at hs
  | sealed j result err =>
    simp only [step, mineStep] at hs
    split at hs
    · rename_i w t _ _ _
      obtain ⟨c1, c2, c3, c4⟩ := works_mine (fun _ _ _ => (result, err)) s.agent w t
      simp only [sentWorks, takenWorks, receivedWorks, dispatchedWorks] at c1 c2 c3 c4
      simp only [Option.some.injEq] at hs
      subst hs
      constructor
      · simp [sentWorks, takenWorks, hf, c1, c2]
      · intro hlen
        simp [receivedWorks, dispatchedWorks, hh hlen, c3, c4]
    · simp at hs

/-- The hand-off invariant holds in every reachable state. -/
theorem handoffInv_reachable (s : World) (h : Reachable s) : HandoffInv s :=
  reachable_preserves HandoffInv handoffInv_init
    (fun s a s' hP hs => handoffInv_step s a s' hP hs) s h

/-- What the loops receive is part of what is taken off `workCh`, in order. -/
theorem receivedWorks_sublist_taken (tr : List Event) :
    (receivedWorks tr).Sublist (takenWorks tr) := by
  induction tr with
  | nil => simp [receivedWorks, takenWorks]
  | cons e rest ih =>
    simp only [receivedWorks, takenWorks] at ih ⊢
    cases e <;>
      simp [List.filterMap_cons, Event.receivedWork, Event.takenWork, ih]

/-- While at most one loop has been started, the dispatched items are part of
the submitted ones, in the order of submission. -/
theorem dispatched_sublist_sent (s : World) (h : Reachable s) (hlen : s.loops.length ≤ 1) :
    (dispatchedWorks s.trace).Sublist (sentWorks s.trace) := by
  have inv := handoffInv_reachable s h
  rw [inv.fifo]
  refine List.Sublist.trans ?_ (List.sublist_append_left _ _)
  refine List.Sublist.trans ?_ (receivedWorks_sublist_taken s.trace)
  rw [inv.hand hlen]
  exact List.sublist_append_left _ _

/-- Two different members of a list come in one order or the other. -/
theorem mem_two_split {α : Type} {l : List α} {a b : α} (ha : a ∈ l) (hb : b ∈ l)
    (hab : a ≠ b) :
    (∃ p q r, l = p ++ a :: (q ++ b :: r)) ∨ (∃ p q r, l = p ++ b :: (q ++ a :: r)) := by
  obtain ⟨p, r, rfl⟩ := List.append_of_mem ha
  simp only [List.mem_append, List.mem_cons] at hb
  rcases hb with hb | hb | hb
  · obtain ⟨p1, q, rfl⟩ := List.append_of_mem hb
    exact Or.inr ⟨p1, q, r, by simp⟩
  · exact absurd hb.symm hab
  · obtain ⟨q, r1, rfl⟩ := List.append_of_mem hb
    exact Or.inl ⟨p, q, r1, rfl⟩

/-- In a list without repetition where `w1` comes before `w2`, no part of it
has `w2` before `w1`. -/
theorem no_inversion {l : List Work} {x y z A B C : List Work} {w1 w2 : Work}
    (hnd : (x ++ w1 :: (y ++ w2 :: z)).Nodup)
    (hsub : l.Sublist (x ++ w1 :: (y ++ w2 :: z)))
    (hl : l = A ++ w2 :: (B ++ w1 :: C)) : False := by
  have hfacts : w2 ∉ x ∧ w1 ≠ w2 ∧ w1 ∉ y ++ w2 :: z := by
    rw [List.nodup_append] at hnd
    obtain ⟨_, h2, h3⟩ := hnd
    rw [List.nodup_cons] at h2
    refine ⟨?_, ?_, h2.1⟩
    · intro hx
      exact h3 hx (by simp)
    · intro he
      exact h2.1 (by simp [he])
  obtain ⟨hx, hne, hy⟩ := hfacts
  have hpw : (x ++ w1 :: (y ++ w2 :: z)).Pairwise (fun a b => a = w2 → b ≠ w1) := by
    rw [List.pairwise_append, List.pairwise_cons]
    refine ⟨?_, ⟨?_, ?_⟩, ?_⟩
    · exact List.pairwise_of_forall_mem_list
        (fun a ha b _ he => absurd (he ▸ ha) hx)
    · intro b _ he
      exact absurd he hne
    · exact List.pairwise_of_forall_mem_list
        (fun a _ b hb _ he => hy (he ▸ hb))
    · intro a ha b _ he
      exact absurd (he ▸ ha) hx
  have hpl := List.Pairwise.sublist hsub hpw
  rw [hl, List.pairwise_append, List.pairwise_cons] at hpl
  exact hpl.2.1.1 w1 (by simp) rfl rfl

/-- The end of a run that does not block is reachable. -/
theorem reachable_afterRun (acts : List Action)
    (h : (run (newWorld 0 ⟨none⟩) acts).isSome = true) : Reachable (afterRun acts) := by
  refine ⟨0, ⟨none⟩, acts, ?_⟩
  unfold afterRun
  cases hr : run (newWorld 0 ⟨none⟩) acts with
  | none => simp [hr] at h
  | some s => simp

/-! ## The claims -/

/-- C1 fails as stated: after `Stop` followed at once by `Start` two loops take
part in the `select`; work 7 is submitted before work 8, each is taken by
another loop, and the loop holding work 8 is first to lock.  The sealing task
of work 8 is spawned before the token of work 7 (token 1) is even made, and
that token has not been closed. -/
theorem C1_counterexample :
    Reachable (afterRun restartRace) ∧
    (afterRun restartRace).trace =
      [Event.spawnUpdate, Event.sendStop, Event.spawnUpdate,
       Event.sendWork ⟨7⟩, Event.recvWork ⟨7⟩, Event.sendWork ⟨8⟩, Event.recvWork ⟨8⟩,
       Event.lock, Event.makeTok 0, Event.spawnMine ⟨8⟩ 0, Event.unlock,
       Event.lock, Event.closeTok 0, Event.makeTok 1, Event.spawnMine ⟨7⟩ 1, Event.unlock] ∧
    sentWorks (afterRun restartRace).trace = [⟨7⟩, ⟨8⟩] ∧
    dispatchedWorks (afterRun restartRace).trace = [⟨8⟩, ⟨7⟩] ∧
    Event.closeTok 1 ∉ (afterRun restartRace).trace :=
  ⟨reachable_afterRun restartRace (by decide), by decide, by decide, by decide, by decide⟩

/-- C1 as amended: in every reachable state, a token the agent has made is
still open exactly when it is the current token `quitCurrentOp` (so none is
open when the field is nil), the current token is one the agent has made, and
no token is closed twice.  Whenever the sealing task of `work2` is spawned
after that of `work1`, the token of `work1` was closed after the first spawn
and before the token of `work2` was made, which comes right before the second
spawn.  A loop that holds a work item handles it by locking, closing the
current token if there is one, making the fresh token, spawning the sealing
task and unlocking, in this order.  While at most one dispatch loop has been
started, sealing tasks are spawned in the order of submission: when `work1` is
submitted before `work2`, every item is submitted once and both have been
dispatched, the task of `work1` was spawned first and its token closed before
the token of `work2` was made. -/
theorem C1_open_tokens_are_current (s : World) (h : Reachable s) :
    (∀ t : Nat, Event.makeTok t ∈ s.trace →
      (Event.closeTok t ∉ s.trace ↔ s.agent.quitCurrentOp = some t)) ∧
    (∀ t : Nat, s.agent.quitCurrentOp = some t → Event.makeTok t ∈ s.trace) ∧
    (∀ t : Nat, s.trace.count (Event.closeTok t) ≤ 1) ∧
    (∀ (a : List Event) (work1 : Work) (t1 : Nat) (b : List Event) (work2 : Work) (t2 : Nat)
        (c : List Event),
      s.trace = a ++ Event.spawnMine work1 t1 :: (b ++ Event.spawnMine work2 t2 :: c) →
      ∃ b', b = b' ++ [Event.makeTok t2] ∧ Event.closeTok t1 ∈ b') ∧
    (∀ (i : Nat) (work : Work), s.loops[i]? = some (LoopPc.gotWork work) →
      ∃ s', updateHandle s i = some s' ∧
        s'.agent.quitCurrentOp = some s.nextTok ∧
        s'.trace = s.trace ++ ([Event.lock] ++ closeCurrent s.agent.quitCurrentOp ++
          [Event.makeTok s.nextTok, Event.spawnMine work s.nextTok, Event.unlock])) ∧
    (∀ (x y z : List Work) (work1 work2 : Work) (t1 t2 : Nat),
      s.loops.length ≤ 1 →
      sentWorks s.trace = x ++ work1 :: (y ++ work2 :: z) →
      (sentWorks s.trace).Nodup →
      Event.spawnMine work1 t1 ∈ s.trace → Event.spawnMine work2 t2 ∈ s.trace →
      ∃ a b c,
        s.trace = a ++ Event.spawnMine work1 t1 :: (b ++ Event.spawnMine work2 t2 :: c) ∧
        ∃ b', b = b' ++ [Event.makeTok t2] ∧ Event.closeTok t1 ∈ b') := by
  have inv := tokInv_reachable s h
  have hmade : ∀ t : Nat, Event.makeTok t ∈ s.trace ↔ t < s.nextTok := by
    intro t
    rw [← List.count_pos_iff, inv.made t]
    split_ifs with ht
    · simp [ht]
    · simp [ht]
  have hbetween : ∀ (a : List Event) (work1 : Work) (t1 : Nat) (b : List Event) (work2 : Work)
      (t2 : Nat) (c : List Event),
      s.trace = a ++ Event.spawnMine work1 t1 :: (b ++ Event.spawnMine work2 t2 :: c) →
      ∃ b', b = b' ++ [Event.makeTok t2] ∧ Event.closeTok t1 ∈ b' := by
    intro a work1 t1 b work2 t2 c htr
    have h2 := inv.order (a ++ Event.spawnMine work1 t1 :: b) work2 t2 c (by rw [htr]; simp)
    obtain ⟨⟨pre', hpre, hclosed⟩, _, hearlier⟩ := h2
    have h1 := inv.order a work1 t1 (b ++ Event.spawnMine work2 t2 :: c) htr
    obtain ⟨_, hnot, _⟩ := h1
    have hlt : t1 < t2 := hearlier work1 t1 (by simp)
    have hmem := hclosed t1 hlt
    rcases List.eq_nil_or_concat b with hb | ⟨b', x, hb⟩
    · subst hb
      have := congrArg List.getLast? hpre
      simp at this
    · subst hb
      have e : (a ++ Event.spawnMine work1 t1 :: b') ++ [x] = pre' ++ [Event.makeTok t2] := by
        rw [← hpre]
        simp
      obtain ⟨e1, e2⟩ := List.append_inj' e rfl
      simp only [List.cons.injEq, and_true] at e2
      subst e2
      refine ⟨b', by simp, ?_⟩
      rw [← e1] at hmem
      simp only [List.mem_append, List.mem_cons, reduceCtorEq, false_or] at hmem
      rcases hmem with hmem | hmem
      · exact absurd hmem hnot
      · exact hmem
  refine ⟨?_, ?_, ?_, hbetween, ?_, ?_⟩
  · intro t ht
    have hlt := (hmade t).1 ht
    rw [← List.count_eq_zero, inv.closed t]
    by_cases hq : s.agent.quitCurrentOp = some t
    · simp [hq]
    · simp [hq, hlt]
  · intro t hq
    exact (hmade t).2 (inv.cur t hq)
  · intro t
    rw [inv.closed t]
    split_ifs <;> omega
  · intro i work hi
    have hstep : updateHandle s i = some { s with
        agent := { s.agent with quitCurrentOp := some s.nextTok }
        loops := s.loops.set i LoopPc.selecting
        sealing := s.sealing ++ [(work, s.nextTok)]
        nextTok := s.nextTok + 1
        trace := s.trace ++ ([Event.lock] ++ closeCurrent s.agent.quitCurrentOp ++
          [Event.makeTok s.nextTok, Event.spawnMine work s.nextTok, Event.unlock]) } := by
      simp only [updateHandle, hi]
    exact ⟨_, hstep, rfl, rfl⟩
  · intro x y z work1 work2 t1 t2 hlen hsent hnd hm1 hm2
    rw [hsent] at hnd
    have hne : Event.spawnMine work1 t1 ≠ Event.spawnMine work2 t2 := by
      intro he
      simp only [Event.spawnMine.injEq] at he
      have hw := he.1
      subst hw
      rw [List.nodup_append, List.nodup_cons] at hnd
      exact hnd.2.1.1 (by simp)
    rcases mem_two_split hm1 hm2 hne with ⟨a, b, c, htr⟩ | ⟨a, b, c, htr⟩
    · exact ⟨a, b, c, htr, hbetween a work1 t1 b work2 t2 c htr⟩
    · exfalso
      have hsub := dispatched_sublist_sent s h hlen
      rw [hsent] at hsub
      refine no_inversion hnd hsub (A := dispatchedWorks a) (B := dispatchedWorks b)
        (C := dispatchedWorks c) ?_
      rw [htr]
      simp [dispatchedWorks, Event.dispatchedWork]

/-- C1 as amended, at the state after two dispatches on one loop: token 1 is
current and open, token 0 was closed once, between the two spawns and before
token 1 was made; work 7 was submitted and dispatched before work 8. -/
theorem C1_witness :
    Reachable (afterRun twoDispatches) ∧
    (afterRun twoDispatches).agent.quitCurrentOp = some 1 ∧
    (Event.closeTok 1 ∉ (afterRun twoDispatches).trace ↔
      (afterRun twoDispatches).agent.quitCurrentOp = some 1) ∧
    (afterRun twoDispatches).trace.count (Event.closeTok 0) ≤ 1 ∧
    (afterRun twoDispatches).trace =
      [Event.spawnUpdate, Event.sendWork ⟨7⟩, Event.recvWork ⟨7⟩, Event.lock, Event.makeTok 0] ++
        Event.spawnMine ⟨7⟩ 0 ::
          ([Event.unlock, Event.sendWork ⟨8⟩, Event.recvWork ⟨8⟩, Event.lock, Event.closeTok 0,
              Event.makeTok 1] ++
            Event.spawnMine ⟨8⟩ 1 :: [Event.unlock]) ∧
    (∃ b', [Event.unlock, Event.sendWork ⟨8⟩, Event.recvWork ⟨8⟩, Event.lock, Event.closeTok 0,
        Event.makeTok 1] = b' ++ [Event.makeTok 1] ∧ Event.closeTok 0 ∈ b') ∧
    (afterRun twoDispatches).loops.length ≤ 1 ∧
    sentWorks (afterRun twoDispatches).trace = [] ++ (⟨7⟩ : Work) :: ([] ++ ⟨8⟩ :: []) ∧
    (sentWorks (afterRun twoDispatches).trace).Nodup ∧
    (∃ a b c, (afterRun twoDispatches).trace =
        a ++ Event.spawnMine ⟨7⟩ 0 :: (b ++ Event.spawnMine ⟨8⟩ 1 :: c) ∧
      ∃ b', b = b' ++ [Event.makeTok 1] ∧ Event.closeTok 0 ∈ b') :=
  ⟨reachable_afterRun twoDispatches (by decide), by decide,
   (C1_open_tokens_are_current _ (reachable_afterRun twoDispatches (by decide))).1 1 (by decide),
   (C1_open_tokens_are_current _ (reachable_afterRun twoDispatches (by decide))).2.2.1 0,
   by decide,
   (C1_open_tokens_are_current _ (reachable_afterRun twoDispatches (by decide))).2.2.2.1
     [Event.spawnUpdate, Event.sendWork ⟨7⟩, Event.recvWork ⟨7⟩, Event.lock, Event.makeTok 0]
     ⟨7⟩ 0
     [Event.unlock, Event.sendWork ⟨8⟩, Event.recvWork ⟨8⟩, Event.lock, Event.closeTok 0,
       Event.makeTok 1]
     ⟨8⟩ 1 [Event.unlock] (by decide),
   by decide, by decide, by decide,
   (C1_open_tokens_are_current _ (reachable_afterRun twoDispatches (by decide))).2.2.2.2.2
     [] [] [] ⟨7⟩ ⟨8⟩ 0 1 (by decide) (by decide) (by decide) (by decide) (by decide)⟩

/-- C2: whatever `Seal` returns, `mine` performs exactly one send on the result
sink: a `Result` holding the submitted work and the returned block when the
result is non-nil (an error next to it changes nothing), and nil when the
result is nil.  In the world, once the sink is set, the step of a sealing task
adds exactly that one message to what has been sent on the sink. -/
theorem C2_mine_delivers_once (work : Work) (stop : Nat) :
    (∀ (Seal : Nat → BlockRef → Nat → Option BlockRef × Option SealError) (self : CpuAgent),
      returned (mine Seal self work stop) =
        [(Seal self.chain work.Block stop).1.map (fun result => Result.mk work result)]) ∧
    (∀ (s : World) (j ch : Nat) (result : Option BlockRef) (err : Option SealError),
      s.sealing[j]? = some (work, stop) → s.agent.returnCh = some ch →
      ∃ s', mineStep s j result err = some s' ∧
        returned s'.trace =
          returned s.trace ++ [result.map (fun result => Result.mk work result)]) := by
  have key : ∀ (S : Nat → BlockRef → Nat → Option BlockRef × Option SealError) (a : CpuAgent),
      returned (mine S a work stop) =
        [(S a.chain work.Block stop).1.map (fun result => Result.mk work result)] := by
    intro S a
    unfold mine
    rcases hS : S a.chain work.Block stop with ⟨_ | result, _ | e⟩ <;> simp [returned]
  refine ⟨key, ?_⟩
  intro s j ch result err hj hch
  have hstep : mineStep s j result err = some { s with
      sealing := s.sealing.eraseIdx j
      trace := s.trace ++ mine (fun _ _ _ => (result, err)) s.agent work stop } := by
    simp only [mineStep, hj, hch]
  refine ⟨_, hstep, ?_⟩
  have hk := key (fun _ _ _ => (result, err)) s.agent
  simp only [returned, List.filterMap_append] at hk ⊢
  rw [hk]

/-- C2 at a running agent with its sink set and one sealing task: a seal that
returns block 9 together with an error delivers the result. -/
theorem C2_witness :
    (SetReturnCh (afterRun oneDispatch) 5).sealing[0]? = some (⟨7⟩, 0) ∧
    (SetReturnCh (afterRun oneDispatch) 5).agent.returnCh = some 5 ∧
    ∃ s', mineStep (SetReturnCh (afterRun oneDispatch) 5) 0 (some 9)
        (some SealError.cancelled) = some s' ∧
      returned s'.trace = returned (SetReturnCh (afterRun oneDispatch) 5).trace ++
        [some ⟨⟨7⟩, 9⟩] :=
  ⟨by decide, by decide,
   (C2_mine_delivers_once ⟨7⟩ 0).2
     (SetReturnCh (afterRun oneDispatch) 5) 0 5 (some 9) (some SealError.cancelled)
     (by decide) (by decide)⟩

/-- C3: `Start` on a stopped agent sets `isMining` to 1 and spawns one dispatch
loop; on a running agent it changes nothing; so a second `Start` changes
nothing, and after two `Start` calls on a fresh agent there is one loop. -/
theorem C3_start_idempotent (s : World) :
    (s.agent.isMining = 0 → Start s = { s with
      agent := { s.agent with isMining := 1 }
      loops := s.loops ++ [LoopPc.selecting]
      trace := s.trace ++ [Event.spawnUpdate] }) ∧
    (s.agent.isMining = 1 → Start s = s) ∧
    Start (Start s) = Start s ∧
    (∀ chain engine, (Start (Start (newWorld chain engine))).loops = [LoopPc.selecting] ∧
      liveLoops (Start (Start (newWorld chain engine))) = 1 ∧
      (Start (Start (newWorld chain engine))).agent.isMining = 1) := by
  refine ⟨?_, ?_, ?_, ?_⟩
  · intro h
    simp [Start, CompareAndSwapInt32, h]
  · intro h
    simp [Start, CompareAndSwapInt32, h]
  · by_cases h : s.agent.isMining = 0
    · simp [Start, CompareAndSwapInt32, h]
    · simp [Start, CompareAndSwapInt32, h]
  · intro chain engine
    simp [Start, CompareAndSwapInt32, newWorld, NewCpuAgent, liveLoops, LoopPc.live]

/-- C3 at a running agent: `Start` changes nothing. -/
theorem C3_witness :
    (afterRun oneDispatch).agent.isMining = 1 ∧
    Start (afterRun oneDispatch) = afterRun oneDispatch :=
  ⟨by decide, (C3_start_idempotent (afterRun oneDispatch)).2.1 (by decide)⟩

/-- C4: on a stopped agent `Stop` returns at its compare-and-swap and leaves
the whole world as it was: state, stop channel, mailbox, current token, sink
and trace (so no stop signal is sent). -/
theorem C4_stop_when_stopped (s : World) (h : s.agent.isMining = 0) :
    Stop s = some s ∧ StopBegin s = s ∧ step s Action.stopBegin = some s := by
  simp [Stop, StopBegin, step, CompareAndSwapInt32, h]

/-- C4 at a stopped agent whose mailbox holds work 7. -/
theorem C4_witness :
    (afterRun [Action.submit ⟨7⟩]).agent.isMining = 0 ∧
    Stop (afterRun [Action.submit ⟨7⟩]) = some (afterRun [Action.submit ⟨7⟩]) :=
  ⟨by decide, (C4_stop_when_stopped (afterRun [Action.submit ⟨7⟩]) (by decide)).1⟩

/-- C5 fails as stated: a fresh (stopped) agent takes work 7 into its mailbox,
and when `Stop` returns the mailbox still holds it. -/
theorem C5_counterexample :
    Reachable (afterRun [Action.submit ⟨7⟩]) ∧
    (afterRun [Action.submit ⟨7⟩]).agent.isMining = 0 ∧
    (Stop (afterRun [Action.submit ⟨7⟩])).map (fun s => s.agent.workCh) = some [⟨7⟩] :=
  ⟨reachable_afterRun _ (by decide), by decide, by decide⟩

/-- C5 as amended: on a running agent, the state in which an uninterrupted
`Stop` returns has an empty mailbox; `Stop` does return when the stop channel
has room; and under any interleaving the drain loop returns only on an empty
mailbox. -/
theorem C5_stop_drains_when_running (s : World) (h : s.agent.isMining = 1) :
    (∀ s', Stop s = some s' → s'.agent.workCh = []) ∧
    (s.agent.stop < chanCap → ∃ s', Stop s = some s' ∧ s'.agent.workCh = []) ∧
    (∀ s1 s2, StopDrain s1 = some s2 → s2.stopDraining < s1.stopDraining →
      s2.agent.workCh = []) := by
  refine ⟨?_, ?_, ?_⟩
  · intro s' hs
    rw [Stop_running s h] at hs
    split at hs
    · simp only [Option.some.injEq] at hs
      subst hs
      rfl
    · simp at hs
  · intro hlt
    rw [Stop_running s h, if_pos hlt]
    exact ⟨_, rfl, rfl⟩
  · intro s1 s2 hs hlt
    simp only [StopDrain] at hs
    split at hs
    · simp at hs
    · split at hs
      · simp only [Option.some.injEq] at hs
        subst hs
        simp at hlt
      · rename_i hw
        simp only [Option.some.injEq] at hs
        subst hs
        exact hw

/-- C5 as amended, at a running agent whose mailbox holds work 7. -/
theorem C5_witness :
    (afterRun [Action.start, Action.submit ⟨7⟩]).agent.isMining = 1 ∧
    (afterRun [Action.start, Action.submit ⟨7⟩]).agent.workCh = [⟨7⟩] ∧
    ∃ s', Stop (afterRun [Action.start, Action.submit ⟨7⟩]) = some s' ∧ s'.agent.workCh = [] :=
  ⟨by decide, by decide,
   (C5_stop_drains_when_running (afterRun [Action.start, Action.submit ⟨7⟩]) (by decide)).2.1
     (by decide)⟩

/-- C6 fails as stated: a running agent has dispatched work 7 under token 0;
when `Stop` returns, token 0 is still the current token, it has not been
closed, and `Stop` has taken the lock no more often than before. -/
theorem C6_counterexample :
    Reachable (afterRun oneDispatch) ∧
    (afterRun oneDispatch).agent.isMining = 1 ∧
    (Stop (afterRun oneDispatch)).map (fun s =>
      (s.agent.quitCurrentOp, decide (Event.closeTok 0 ∈ s.trace),
        s.trace.count Event.lock - (afterRun oneDispatch).trace.count Event.lock)) =
      some (some 0, false, 0) :=
  ⟨reachable_afterRun _ (by decide), by decide, by decide⟩

/-- C6 as amended: on a running agent `Stop` itself takes no lock and closes no
token; it sets `isMining` to 0, leaves `quitCurrentOp` as it is and puts one
signal on the stop channel, and it returns when that channel has room.  The
dispatch loop that has taken the signal then locks, closes the current token
if there is one, clears the field, unlocks and leaves. -/
theorem C6_stop_leaves_token_to_loop (s : World) (h : s.agent.isMining = 1) :
    (∀ s', Stop s = some s' →
      s'.agent.quitCurrentOp = s.agent.quitCurrentOp ∧
      (∀ t : Nat, s'.trace.count (Event.closeTok t) = s.trace.count (Event.closeTok t)) ∧
      s'.trace.count Event.lock = s.trace.count Event.lock ∧
      s'.agent.stop = s.agent.stop + 1 ∧
      s'.agent.isMining = 0) ∧
    (s.agent.stop < chanCap → (Stop s).isSome = true) ∧
    (∀ (s1 : World) (i : Nat), s1.loops[i]? = some LoopPc.gotStop →
      updateHandle s1 i = some { s1 with
        agent := { s1.agent with quitCurrentOp := none }
        loops := s1.loops.set i LoopPc.exited
        trace := s1.trace ++
          ([Event.lock] ++ closeCurrent s1.agent.quitCurrentOp ++ [Event.unlock]) }) := by
  refine ⟨?_, ?_, ?_⟩
  · intro s' hs
    rw [Stop_running s h] at hs
    split at hs
    · simp only [Option.some.injEq] at hs
      subst hs
      refine ⟨rfl, ?_, ?_, rfl, rfl⟩
      · intro t
        simp only [List.count_append, List.count_cons, List.count_nil, beq_iff_eq, reduceCtorEq,
          if_false, add_zero, zero_add]
        have : (s.agent.workCh.map Event.drainWork).count (Event.closeTok t) = 0 := by
          rw [List.count_eq_zero]
          simp
        omega
      · simp only [List.count_append, List.count_cons, List.count_nil, beq_iff_eq, reduceCtorEq,
          if_false, add_zero, zero_add]
        have : (s.agent.workCh.map Event.drainWork).count Event.lock = 0 := by
          rw [List.count_eq_zero]
          simp
        omega
    · simp at hs
  · intro hlt
    rw [Stop_running s h, if_pos hlt]
    rfl
  · intro s1 i hi
    simp only [updateHandle, hi]

/-- C6 as amended, at a running agent with current token 0. -/
theorem C6_witness :
    (afterRun oneDispatch).agent.isMining = 1 ∧
    (afterRun oneDispatch).agent.stop < chanCap ∧
    (Stop (afterRun oneDispatch)).isSome = true :=
  ⟨by decide, by decide,
   (C6_stop_leaves_token_to_loop (afterRun oneDispatch) (by decide)).2.1 (by decide)⟩

/-- C7 fails as stated: when `Seal` returns no result and the error that says
the operation was cancelled, `mine` logs a warning with that error. -/
theorem C7_counterexample :
    warnings (mine (fun _ _ _ => (none, some SealError.cancelled))
      (NewCpuAgent 0 ⟨none⟩) ⟨7⟩ 0) = [SealError.cancelled] := by
  decide

/-- C7 as amended: `mine` logs a warning exactly when `Seal` returns no result
and an error, whichever error it is; it then logs one warning, carrying that
error; a seal that returns a result logs no warning. -/
theorem C7_warns_on_any_error
    (Seal : Nat → BlockRef → Nat → Option BlockRef × Option SealError)
    (self : CpuAgent) (work : Work) (stop : Nat) :
    warnings (mine Seal self work stop) =
      (match Seal self.chain work.Block stop with
        | (none, some e) => [e]
        | _ => []) ∧
    (warnings (mine Seal self work stop) ≠ [] ↔
      (Seal self.chain work.Block stop).1 = none ∧ (Seal self.chain work.Block stop).2 ≠ none) := by
  unfold mine
  rcases hS : Seal self.chain work.Block stop with ⟨_ | result, _ | e⟩ <;> simp [warnings]

/-- C8: `GetHashRate` returns 0 when the engine does not implement the
hash-rate capability and otherwise the engine's `Hashrate()` converted by
`int64`, a 64-bit integer when the conversion yields one; either way it leaves
the world, trace included, as it was: no field changes, no lock is taken and
no channel is used. -/
theorem C8_GetHashRate_pure (int64 : Float64 → Int) (s : World) :
    (GetHashRate int64 s).1 = s ∧
    (s.agent.engine.pow = none → (GetHashRate int64 s).2 = 0) ∧
    (∀ rate, s.agent.engine.pow = some rate → (GetHashRate int64 s).2 = int64 rate) ∧
    ((∀ rate, -2 ^ 63 ≤ int64 rate ∧ int64 rate < 2 ^ 63) →
      -2 ^ 63 ≤ (GetHashRate int64 s).2 ∧ (GetHashRate int64 s).2 < 2 ^ 63) := by
  unfold GetHashRate
  cases h : s.agent.engine.pow with
  | none => simp
  | some rate =>
    simp only [reduceCtorEq, false_implies, Option.some.injEq, true_and]
    exact ⟨fun r hr => by rw [hr], fun hrange => hrange rate⟩

/-- C8 at a fresh agent whose engine reports the rate with bit pattern 12. -/
theorem C8_witness :
    (newWorld 0 ⟨some 12⟩).agent.engine.pow = some 12 ∧
    (GetHashRate (fun bits => Int.ofNat bits + 30) (newWorld 0 ⟨some 12⟩)).2 = 42 :=
  ⟨rfl, (C8_GetHashRate_pure (fun bits => Int.ofNat bits + 30) (newWorld 0 ⟨some 12⟩)).2.2.1 12 rfl⟩

/-- C9: in every reachable state the dispatch loops that have not taken a stop
signal are as many as `isMining` (1 running, 0 stopped) plus the stop signals
in the stop channel plus the `Stop` calls that stand at their send; so with no
such signal pending a running agent has one such loop and a stopped one none. -/
theorem C9_live_loops (s : World) (h : Reachable s) :
    (liveLoops s : Int) = s.agent.isMining + (s.agent.stop : Int) + (s.stopSending : Int) ∧
    (s.agent.isMining = 0 ∨ s.agent.isMining = 1) ∧
    (s.agent.stop = 0 → s.stopSending = 0 →
      (s.agent.isMining = 1 → liveLoops s = 1) ∧ (s.agent.isMining = 0 → liveLoops s = 0)) := by
  have inv := countInv_reachable s h
  refine ⟨inv.live, inv.mining, ?_⟩
  intro h0 h1
  have hl := inv.live
  rw [h0, h1] at hl
  constructor
  · intro hm
    rw [hm] at hl
    simp only [Nat.cast_zero, add_zero] at hl
    exact_mod_cast hl
  · intro hm
    rw [hm] at hl
    simp only [Nat.cast_zero, add_zero] at hl
    exact_mod_cast hl

/-- C9 at the state where `Stop` was followed by `Start` before the first loop
took the stop signal: two loops, a running agent and one pending signal. -/
theorem C9_witness :
    Reachable (afterRun quickRestart) ∧
    liveLoops (afterRun quickRestart) = 2 ∧
    (afterRun quickRestart).agent.isMining = 1 ∧
    (afterRun quickRestart).agent.stop = 1 ∧
    ((liveLoops (afterRun quickRestart) : Int) =
      (afterRun quickRestart).agent.isMining + ((afterRun quickRestart).agent.stop : Int) +
        ((afterRun quickRestart).stopSending : Int)) :=
  ⟨reachable_afterRun _ (by decide), by decide, by decide, by decide,
   (C9_live_loops _ (reachable_afterRun quickRestart (by decide))).1⟩

/-- C10: in every reachable state whose dispatch loops have all left `update`
(none was started, or each has handled its stop signal), `quitCurrentOp` is
nil and every token the agent has made is closed; and a loop that has left
takes no further step (no receive, no dispatch, so it spawns no sealing task)
and stays where it is along every run. -/
theorem C10_no_loop_no_token (s : World) (h : Reachable s) :
    ((∀ pc, pc ∈ s.loops → pc = LoopPc.exited) →
      s.agent.quitCurrentOp = none ∧
      ∀ t : Nat, Event.makeTok t ∈ s.trace → Event.closeTok t ∈ s.trace) ∧
    (∀ i : Nat, s.loops[i]? = some LoopPc.exited →
      updateRecvWork s i = none ∧ updateRecvStop s i = none ∧ updateHandle s i = none ∧
      ∀ acts s', run s acts = some s' → s'.loops[i]? = some LoopPc.exited) := by
  constructor
  · intro hall
    have hq : s.agent.quitCurrentOp = none := by
      rcases ownerInv_reachable s h with hq | ⟨pc, hpc, hne⟩
      · exact hq
      · exact absurd (hall pc hpc) hne
    refine ⟨hq, ?_⟩
    intro t ht
    have inv := tokInv_reachable s h
    have hlt : t < s.nextTok := by
      by_contra hge
      have := inv.made t
      rw [if_neg hge] at this
      exact (List.count_eq_zero.1 this) ht
    have hc := inv.closed t
    rw [if_pos ⟨hlt, by simp [hq]⟩] at hc
    exact List.count_pos_iff.1 (by omega)
  · intro i hi
    obtain ⟨h1, h2, h3⟩ := exited_blocked s i hi
    refine ⟨h1, h2, h3, ?_⟩
    intro acts s' hrun
    exact run_preserves (fun w => w.loops[i]? = some LoopPc.exited)
      (fun w a w' hw hs => exited_step w a w' i hw hs) acts s s' hi hrun

/-- C10 at the state where the only loop has handled its stop signal after
one dispatch: token 0 was made and is closed, and no token is current. -/
theorem C10_witness :
    Reachable (afterRun dispatchThenStop) ∧
    (afterRun dispatchThenStop).loops = [LoopPc.exited] ∧
    Event.makeTok 0 ∈ (afterRun dispatchThenStop).trace ∧
    (afterRun dispatchThenStop).agent.quitCurrentOp = none ∧
    Event.closeTok 0 ∈ (afterRun dispatchThenStop).trace :=
  ⟨reachable_afterRun _ (by decide), by decide, by decide,
   ((C10_no_loop_no_token _ (reachable_afterRun dispatchThenStop (by decide))).1
      (by decide)).1,
   ((C10_no_loop_no_token _ (reachable_afterRun dispatchThenStop (by decide))).1
      (by decide)).2 0 (by decide)⟩

end Miner
